import Mathlib

/-!
Verification of the balanced risk-set matching engine.

The program under study builds, for a cohort of treated and untreated subjects,
(1) risk sets (`create_risk_sets`), (2) a pairwise Mahalanobis dissimilarity
matrix (`calculate_mahalanobis_matrix`), (3) an optimal one-to-one matching via
a binary integer program handed to an external solver
(`optimal_balanced_matching`), and (4) a per-pair sensitivity score
(`sensitivity_analysis`).

Modelling conventions:
* a subject table row carries its treatment indicator (an integer, since the
  source compares the column against the literals `1` and `0`) and its
  event/observation time (a rational standing for the numeric time value);
  rows are addressed by their position, mirroring the default integer index
  of the source's data frame;
* the external binary-integer-program solver (pulp/CBC) is modelled as an
  exact solver: it returns a feasible 0/1 assignment of least objective value
  when one exists and an infeasible status (`none`) otherwise, matching the
  collaborator contract the design states (optimal assignment plus a status
  flag).  When the program is infeasible no variable is assigned the value 1,
  so the source's extraction loop produces the empty mapping;
* real-valued distances are rationals except in the Mahalanobis model, where
  the square root forces real numbers.
-/

namespace BalancedRiskSetMatching

/-- A row of the subject table: the treatment indicator column value and the
numeric treatment/observation time column value, the only two columns
`create_risk_sets` reads. -/
structure Subject where
  treatment : Int
  time : ℚ
deriving DecidableEq

/-- Controls eligible for a treated subject with treatment time `t`: the
source filters the table to rows with `treatment == 0` and `time >= t` and
collects their indices, in table order. -/
def riskSetControls (tbl : List Subject) (t : ℚ) : List Nat :=
  ((List.enumFrom 0 tbl).filter
      (fun js => js.2.treatment == 0 && decide (t ≤ js.2.time))).map Prod.fst

/-- Shallow embedding of `create_risk_sets`: for each row with
`treatment == 1` (in table order) produce the pair of its index and the list
of eligible control indices. -/
def create_risk_sets (tbl : List Subject) : List (Nat × List Nat) :=
  ((List.enumFrom 0 tbl).filter (fun is => is.2.treatment == 1)).map
    (fun is => (is.1, riskSetControls tbl is.2.time))

/-- The validation behaviour the design document demands of the Risk-Set
Builder, stated as a reference function to compare with the source: fail with
`InvalidInputError` when the treatment column holds a value other than the two
recognized states, succeed otherwise.  (A missing or non-numeric time value is
not representable in this model, where every time is an exact rational, so
only the treatment-column clause is rendered.) -/
def createRiskSetsSpec (tbl : List Subject) : Except String (List (Nat × List Nat)) :=
  if tbl.all (fun s => s.treatment == 0 || s.treatment == 1) then
    Except.ok (create_risk_sets tbl)
  else
    Except.error "InvalidInputError"

/-- Row `j` appears nowhere in the risk-set structure: it is not a treated key
and belongs to no risk set. -/
def ExcludedFromRiskSets (tbl : List Subject) (j : Nat) : Prop :=
  ∀ p ∈ create_risk_sets tbl, p.1 ≠ j ∧ j ∉ p.2

/-- Every key of the produced risk-set mapping is the index of a row whose
treatment value is the recognized treated state. -/
def KeysAreTreated (tbl : List Subject) : Prop :=
  ∀ p ∈ create_risk_sets tbl, ∃ s, tbl[p.1]? = some s ∧ s.treatment = 1

/-- Membership characterisation of the risk set assigned to treated row `i`
(whose record is `s`): row `j` (whose record is `c`) belongs to it exactly
when `c` is untreated and observed at or after the treatment time of `s`. -/
def RiskSetMemIff (tbl : List Subject) (i j : Nat) (s c : Subject) : Prop :=
  (∃ rs, (i, rs) ∈ create_risk_sets tbl) ∧
    ∀ rs, (i, rs) ∈ create_risk_sets tbl →
      (j ∈ rs ↔ c.treatment = 0 ∧ s.time ≤ c.time)

/-- Shallow embedding of `sensitivity_analysis`: every matched pair is mapped
to the score `1 / (1 + bias_factor)`, exactly the formula of the source. -/
def sensitivity_analysis (matched : List (Nat × Nat)) (bias_factor : ℚ) :
    List ((Nat × Nat) × ℚ) :=
  matched.map (fun pair => (pair, 1 / (1 + bias_factor)))

/-- All scores of a sensitivity-analysis output lie in the half-open unit
interval. -/
def ScoresInUnitInterval (scores : List ((Nat × Nat) × ℚ)) : Prop :=
  ∀ x ∈ scores, 0 < x.2 ∧ x.2 ≤ 1

/-- Pairwise comparison of two sensitivity-analysis runs over the same
matching: each pair's score at the second bias strength is at most its score
at the first. -/
def ScoresAntitone (matched : List (Nat × Nat)) (gamma1 gamma2 : ℚ) : Prop :=
  ∀ p s1 s2, (p, s1) ∈ sensitivity_analysis matched gamma1 →
    (p, s2) ∈ sensitivity_analysis matched gamma2 → s2 ≤ s1

/-- The library distance routine: square root of `(u - v)ᵗ · VI · (u - v)`
for the supplied inverse covariance matrix `VI`. -/
noncomputable def mahalanobisDistance {k : Nat} (VI : Matrix (Fin k) (Fin k) ℝ)
    (u v : Fin k → ℝ) : ℝ :=
  Real.sqrt (∑ a, ∑ b, (u a - v a) * VI a b * (u b - v b))

/-- Shallow embedding of `calculate_mahalanobis_matrix`: the matrix whose
`(i, j)` entry is the Mahalanobis distance between the covariate vectors of
subjects `i` and `j`, computed with the inverse of `cov` (the source inverts
the covariance matrix and hands it to the distance routine). -/
noncomputable def calculate_mahalanobis_matrix {n k : Nat} (data : Fin n → Fin k → ℝ)
    (cov : Matrix (Fin k) (Fin k) ℝ) : Matrix (Fin n) (Fin n) ℝ :=
  Matrix.of fun i j => mahalanobisDistance cov⁻¹ (data i) (data j)

/-- Decision-variable index set of the integer program: one `(t, c)` pair per
treated key `t` and control `c` in its risk set, in the source's iteration
order. -/
def matchPairs : List (Nat × List Nat) → List (Nat × Nat)
  | [] => []
  | tc :: rest => tc.2.map (fun c => (tc.1, c)) ++ matchPairs rest

/-- Objective of the integer program for a 0/1 assignment (represented by the
set `S` of variables holding value 1): the sum over all decision variables of
the variable's value times the pair's distance. -/
def objectiveVal (D : Nat → Nat → ℚ) (risk_sets : List (Nat × List Nat))
    (S : List (Nat × Nat)) : ℚ :=
  ((matchPairs risk_sets).map (fun p => if p ∈ S then D p.1 p.2 else 0)).sum

/-- The distinct control indices appearing in any risk set (the source forms
a set of all controls before adding the at-most-one constraints).  The
concatenation of all control lists is exactly the second components of
`matchPairs`. -/
def allControls (risk_sets : List (Nat × List Nat)) : List Nat :=
  ((matchPairs risk_sets).map Prod.snd).dedup

/-- Constraint added for every treated key `t` of the risk-set mapping: the
sum over its control list of the variables `x (t, c)` equals 1.  The source
adds this row for every key, the empty control list included. -/
def exactlyOneConstraint (S : List (Nat × Nat)) (tc : Nat × List Nat) : Bool :=
  tc.2.countP (fun c => decide ((tc.1, c) ∈ S)) == 1

/-- Constraint added for every control `c`: summing `x (t, c)` over the keys
`t` whose risk set holds `c` gives at most 1. -/
def atMostOneConstraint (risk_sets : List (Nat × List Nat)) (S : List (Nat × Nat))
    (c : Nat) : Bool :=
  decide (risk_sets.countP (fun tc => decide (c ∈ tc.2 ∧ (tc.1, c) ∈ S)) ≤ 1)

/-- A 0/1 assignment satisfies the constraint rows the source constructs. -/
def feasibleB (risk_sets : List (Nat × List Nat)) (S : List (Nat × Nat)) : Bool :=
  risk_sets.all (exactlyOneConstraint S) &&
    (allControls risk_sets).all (atMostOneConstraint risk_sets S)

/-- Model of the external binary-integer-program solver (`prob.solve()`): an
exact solver over the finitely many 0/1 assignments of the constructed
program.  It returns an assignment of least objective value among the feasible
ones, or `none` (the infeasible status) when no assignment satisfies the
constraints. -/
def solveBIP (D : Nat → Nat → ℚ) (risk_sets : List (Nat × List Nat)) :
    Option (List (Nat × Nat)) :=
  (((matchPairs risk_sets).sublists).filter (feasibleB risk_sets)).argmin
    (objectiveVal D risk_sets)

/-- The source's result extraction: the pairs `(t, c)` whose decision variable
holds value 1, collected in risk-set iteration order. -/
def extractMatches (S : List (Nat × Nat)) : List (Nat × List Nat) → List (Nat × Nat)
  | [] => []
  | tc :: rest =>
      (tc.2.filter (fun c => decide ((tc.1, c) ∈ S))).map (fun c => (tc.1, c))
        ++ extractMatches S rest

/-- Shallow embedding of `optimal_balanced_matching`: build the program,
solve it, and extract the matched pairs.  The returned value is a bare
matching in either case — the source discards the status of `prob.solve()`,
and on an infeasible program no variable holds value 1, so the extraction
yields the empty mapping. -/
def optimal_balanced_matching (D : Nat → Nat → ℚ)
    (risk_sets : List (Nat × List Nat)) : List (Nat × Nat) :=
  match solveBIP D risk_sets with
  | some S => extractMatches S risk_sets
  | none => extractMatches [] risk_sets

/-- Total dissimilarity of a matching: the sum of the matched pairs'
distances. -/
def totalDist (D : Nat → Nat → ℚ) (M : List (Nat × Nat)) : ℚ :=
  (M.map (fun p => D p.1 p.2)).sum

/-- Every control list of the risk-set mapping is duplicate-free, as holds for
any mapping the source builds from a data frame with a duplicate-free index. -/
def ControlsNodup (risk_sets : List (Nat × List Nat)) : Prop :=
  ∀ tc ∈ risk_sets, tc.2.Nodup

instance (risk_sets : List (Nat × List Nat)) : Decidable (ControlsNodup risk_sets) :=
  List.decidableBAll _ risk_sets

/-- A feasible one-to-one assignment respecting the risk sets: each treated
key is paired with exactly one control, the chosen controls are pairwise
distinct, and each pair's control belongs to the risk set of its treated
subject. -/
def FeasibleAssignment (risk_sets : List (Nat × List Nat))
    (m : List (Nat × Nat)) : Prop :=
  List.Perm (m.map Prod.fst) (risk_sets.map Prod.fst) ∧
    (m.map Prod.snd).Nodup ∧
    ∀ p ∈ m, ∃ tc ∈ risk_sets, tc.1 = p.1 ∧ p.2 ∈ tc.2

instance (risk_sets : List (Nat × List Nat)) (m : List (Nat × Nat)) :
    Decidable (FeasibleAssignment risk_sets m) := by
  unfold FeasibleAssignment
  infer_instance

/-- Every matched pair's control belongs to the risk set of the treated
subject it is paired with. -/
def MatchingRespectsRiskSets (risk_sets : List (Nat × List Nat))
    (M : List (Nat × Nat)) : Prop :=
  ∀ p ∈ M, ∃ cs, (p.1, cs) ∈ risk_sets ∧ p.2 ∈ cs

/-- Distance function used by the concrete witness instances. -/
def dW : Nat → Nat → ℚ := fun i j => (i : ℚ) + (j : ℚ)

/-- Witness table for the risk-set membership claim: row 0 treated at time 2,
row 1 untreated with observation time 5. -/
def tblC3 : List Subject := [⟨1, 2⟩, ⟨0, 5⟩]

/-- Witness table holding a row whose treatment value is neither recognized
state. -/
def tblC10 : List Subject := [⟨2, 1⟩, ⟨1, 0⟩]

/-- Counterexample table for the validation claim: row 0 carries the
unrecognized treatment value 2, row 1 is treated at time 2, row 2 is an
untreated control observed at time 7. -/
def tblC8 : List Subject := [⟨2, 5⟩, ⟨1, 2⟩, ⟨0, 7⟩]

/-- Witness table for the amended validation claim. -/
def tblC8w : List Subject := [⟨5, 1⟩, ⟨1, 3⟩, ⟨0, 4⟩]

/-- Witness risk sets for the optimality claim. -/
def rsW1 : List (Nat × List Nat) := [(0, [2]), (1, [2, 3])]

/-- Witness feasible assignment over `rsW1`. -/
def mW1 : List (Nat × Nat) := [(0, 2), (1, 3)]

/-- Witness risk sets for the matching-invariant claim. -/
def rsW4 : List (Nat × List Nat) := [(0, [1])]

/-- Risk sets exhibiting the empty-risk-set defect: treated subject 0 has no
eligible control while treated subject 1 has the single control 5. -/
def rsEmptyRS : List (Nat × List Nat) := [(0, []), (1, [5])]

/-- Risk sets whose program is infeasible although every risk set is
non-empty: two treated subjects compete for the single control 9. -/
def rsShared : List (Nat × List Nat) := [(0, [9]), (1, [9])]

/-- Risk sets refuting the unconditional matching-invariant claim: both
treated subjects have the non-empty risk set holding only control 7, so no
one-to-one assignment exists and the program is infeasible. -/
def rsC4 : List (Nat × List Nat) := [(0, [7]), (1, [7])]

/-- Witness covariance matrix (the identity on one covariate). -/
def covW : Matrix (Fin 1) (Fin 1) ℝ := 1

/-- Witness covariate data. -/
def dataW : Fin 1 → Fin 1 → ℝ := fun _ _ => 0

theorem mem_enumFrom_iff {α : Type} (l : List α) (n i : Nat) (a : α) :
    (i, a) ∈ List.enumFrom n l ↔ ∃ k, i = n + k ∧ l[k]? = some a := by
  induction l generalizing n with
  | nil => simp
  | cons b t ih =>
    rw [show List.enumFrom n (b :: t) = (n, b) :: List.enumFrom (n + 1) t from rfl]
    simp only [List.mem_cons, Prod.mk.injEq, ih (n + 1)]
    constructor
    · rintro (⟨rfl, rfl⟩ | ⟨k, rfl, hk⟩)
      · exact ⟨0, by simp⟩
      · exact ⟨k + 1, by omega, by simpa using hk⟩
    · rintro ⟨k, rfl, hk⟩
      cases k with
      | zero =>
        left
        simp only [List.getElem?_cons_zero, Option.some.injEq] at hk
        simp [hk]
      | succ k =>
        right
        refine ⟨k, by omega, ?_⟩
        simpa using hk

theorem mem_riskSetControls {tbl : List Subject} {t : ℚ} {j : Nat} :
    j ∈ riskSetControls tbl t ↔
      ∃ c, tbl[j]? = some c ∧ c.treatment = 0 ∧ t ≤ c.time := by
  unfold riskSetControls
  constructor
  · intro h
    obtain ⟨js, hjs, rfl⟩ := List.mem_map.mp h
    rw [List.mem_filter] at hjs
    obtain ⟨hmem, hpred⟩ := hjs
    obtain ⟨k, hk, hget⟩ := (mem_enumFrom_iff tbl 0 js.1 js.2).mp
      (by rw [show (js.1, js.2) = js from rfl]; exact hmem)
    simp only [Bool.and_eq_true, beq_iff_eq, decide_eq_true_eq] at hpred
    exact ⟨js.2, by rw [hk, Nat.zero_add]; exact hget, hpred.1, hpred.2⟩
  · rintro ⟨c, hget, h0, ht⟩
    apply List.mem_map.mpr
    refine ⟨(j, c), ?_, rfl⟩
    rw [List.mem_filter]
    constructor
    · exact (mem_enumFrom_iff tbl 0 j c).mpr ⟨j, by omega, hget⟩
    · simp [h0, ht]

theorem mem_create_risk_sets {tbl : List Subject} {i : Nat} {rs : List Nat} :
    (i, rs) ∈ create_risk_sets tbl ↔
      ∃ s, tbl[i]? = some s ∧ s.treatment = 1 ∧ rs = riskSetControls tbl s.time := by
  unfold create_risk_sets
  constructor
  · intro h
    obtain ⟨is, his, heq⟩ := List.mem_map.mp h
    rw [List.mem_filter] at his
    obtain ⟨hmem, hpred⟩ := his
    obtain ⟨k, hk, hget⟩ := (mem_enumFrom_iff tbl 0 is.1 is.2).mp
      (by rw [show (is.1, is.2) = is from rfl]; exact hmem)
    simp only [beq_iff_eq] at hpred
    rw [Prod.mk.injEq] at heq
    refine ⟨is.2, ?_, hpred, heq.2.symm⟩
    rw [← heq.1, hk, Nat.zero_add]
    exact hget
  · rintro ⟨s, hget, h1, rfl⟩
    apply List.mem_map.mpr
    refine ⟨(i, s), ?_, rfl⟩
    rw [List.mem_filter]
    constructor
    · exact (mem_enumFrom_iff tbl 0 i s).mpr ⟨i, by omega, hget⟩
    · simp [h1]

/-- C3: a subject `c` belongs to the risk set `create_risk_sets` assigns to a
treated subject `s` exactly when `c` is untreated and its observation time is
at least the treatment time of `s`, ties included. -/
theorem create_risk_sets_mem_iff (tbl : List Subject) (i j : Nat) (s c : Subject)
    (hs : tbl[i]? = some s) (hst : s.treatment = 1) (hc : tbl[j]? = some c) :
    RiskSetMemIff tbl i j s c := by
  constructor
  · exact ⟨riskSetControls tbl s.time, mem_create_risk_sets.mpr ⟨s, hs, hst, rfl⟩⟩
  · intro rs hrs
    obtain ⟨s', hs', _, rfl⟩ := mem_create_risk_sets.mp hrs
    have hss : s' = s := by
      rw [hs] at hs'
      exact (Option.some.inj hs').symm
    subst hss
    rw [mem_riskSetControls]
    constructor
    · rintro ⟨c', hc', h0, ht⟩
      rw [hc] at hc'
      have : c' = c := (Option.some.inj hc').symm
      subst this
      exact ⟨h0, ht⟩
    · rintro ⟨h0, ht⟩
      exact ⟨c, hc, h0, ht⟩

/-- Witness for C3 at a concrete table: row 0 is treated at time 2 and row 1
is an untreated control observed at time 5. -/
theorem create_risk_sets_mem_iff_witness :
    (tblC3[0]? = some ⟨1, 2⟩ ∧ (⟨1, 2⟩ : Subject).treatment = 1 ∧
        tblC3[1]? = some ⟨0, 5⟩) ∧
      RiskSetMemIff tblC3 0 1 ⟨1, 2⟩ ⟨0, 5⟩ :=
  ⟨⟨rfl, rfl, rfl⟩, create_risk_sets_mem_iff tblC3 0 1 ⟨1, 2⟩ ⟨0, 5⟩ rfl rfl rfl⟩

theorem excludedFromRiskSets_of_unrecognized (tbl : List Subject) (j : Nat)
    (r : Subject) (hj : tbl[j]? = some r) (h0 : r.treatment ≠ 0)
    (h1 : r.treatment ≠ 1) : ExcludedFromRiskSets tbl j := by
  rintro ⟨i, rs⟩ hp
  obtain ⟨s, hs, hst, rfl⟩ := mem_create_risk_sets.mp hp
  constructor
  · intro hij
    have hij' : i = j := hij
    rw [hij', hj] at hs
    have hrs : r = s := Option.some.inj hs
    exact h1 (by rw [hrs]; exact hst)
  · intro hin
    obtain ⟨c, hc, hc0, _⟩ := mem_riskSetControls.mp hin
    rw [hj] at hc
    have hrc : r = c := Option.some.inj hc
    exact h0 (by rw [hrc]; exact hc0)

/-- C10: a row whose treatment value is neither recognized state is silently
excluded by `create_risk_sets`: its index is no treated key and belongs to no
risk set, and the function returns normally (it is total and performs no
validation). -/
theorem create_risk_sets_skips_unrecognized (tbl : List Subject) (j : Nat)
    (r : Subject) (hj : tbl[j]? = some r) (h0 : r.treatment ≠ 0)
    (h1 : r.treatment ≠ 1) : ExcludedFromRiskSets tbl j :=
  excludedFromRiskSets_of_unrecognized tbl j r hj h0 h1

/-- Witness for C10: the unrecognized row 0 of `tblC10` is excluded. -/
theorem create_risk_sets_skips_unrecognized_witness :
    (tblC10[0]? = some ⟨2, 1⟩ ∧ (⟨2, 1⟩ : Subject).treatment ≠ 0 ∧
        (⟨2, 1⟩ : Subject).treatment ≠ 1) ∧
      ExcludedFromRiskSets tblC10 0 :=
  ⟨⟨rfl, by decide, by decide⟩,
    create_risk_sets_skips_unrecognized tblC10 0 ⟨2, 1⟩ rfl (by decide) (by decide)⟩

/-- C8 counterexample: on a table holding the unrecognized treatment value 2
the reference validation demanded by the design fails with
`InvalidInputError`, while the source's `create_risk_sets` raises nothing and
returns an ordinary risk-set mapping (treated row 1 with control row 2). -/
theorem create_risk_sets_no_error_on_bad_treatment :
    createRiskSetsSpec tblC8 = Except.error "InvalidInputError" ∧
      create_risk_sets tblC8 = [(1, [2])] :=
  ⟨rfl, by decide⟩

/-- C8 amended: `create_risk_sets` never fails; a row with an unrecognized
treatment value is silently excluded from the treated keys and from every
risk set, and the mapping is computed from the recognized rows (every key is
a genuinely treated row). -/
theorem create_risk_sets_never_fails (tbl : List Subject) (j : Nat) (r : Subject)
    (hj : tbl[j]? = some r) (h0 : r.treatment ≠ 0) (h1 : r.treatment ≠ 1) :
    ExcludedFromRiskSets tbl j ∧ KeysAreTreated tbl := by
  refine ⟨excludedFromRiskSets_of_unrecognized tbl j r hj h0 h1, ?_⟩
  rintro ⟨i, rs⟩ hp
  obtain ⟨s, hs, hst, _⟩ := mem_create_risk_sets.mp hp
  exact ⟨s, hs, hst⟩

/-- Witness for the amended C8 at a concrete table. -/
theorem create_risk_sets_never_fails_witness :
    (tblC8w[0]? = some ⟨5, 1⟩ ∧ (⟨5, 1⟩ : Subject).treatment ≠ 0 ∧
        (⟨5, 1⟩ : Subject).treatment ≠ 1) ∧
      (ExcludedFromRiskSets tblC8w 0 ∧ KeysAreTreated tblC8w) :=
  ⟨⟨rfl, by decide, by decide⟩,
    create_risk_sets_never_fails tblC8w 0 ⟨5, 1⟩ rfl (by decide) (by decide)⟩

/-- C5: for a fixed matching and bias strengths `1 ≤ gamma1 ≤ gamma2`, every
pair's sensitivity score at `gamma2` is at most its score at `gamma1` — the
score is monotone non-increasing in the bias strength. -/
theorem sensitivity_analysis_antitone (matched : List (Nat × Nat))
    (gamma1 gamma2 : ℚ) (h1 : 1 ≤ gamma1) (h12 : gamma1 ≤ gamma2) :
    ScoresAntitone matched gamma1 gamma2 := by
  intro p s1 s2 hs1 hs2
  obtain ⟨q1, _, he1⟩ := List.mem_map.mp hs1
  obtain ⟨q2, _, he2⟩ := List.mem_map.mp hs2
  have e1 : 1 / (1 + gamma1) = s1 := congrArg Prod.snd he1
  have e2 : 1 / (1 + gamma2) = s2 := congrArg Prod.snd he2
  rw [← e1, ← e2]
  exact one_div_le_one_div_of_le (by linarith) (by linarith)

/-- Witness for C5 at a concrete matching and the bias strengths 1 and 2. -/
theorem sensitivity_analysis_antitone_witness :
    ((1 : ℚ) ≤ 1 ∧ (1 : ℚ) ≤ 2) ∧ ScoresAntitone [(0, 1)] 1 2 :=
  ⟨⟨le_refl 1, by decide⟩,
    sensitivity_analysis_antitone [(0, 1)] 1 2 (le_refl 1) (by decide)⟩

/-- C9: for any matching and bias strength at least 1, every score produced
by `sensitivity_analysis` lies in the interval `(0, 1]`. -/
theorem sensitivity_analysis_unit_interval (matched : List (Nat × Nat))
    (gamma : ℚ) (h : 1 ≤ gamma) :
    ScoresInUnitInterval (sensitivity_analysis matched gamma) := by
  intro x hx
  obtain ⟨q, _, he⟩ := List.mem_map.mp hx
  have e : 1 / (1 + gamma) = x.2 := congrArg Prod.snd he
  rw [← e]
  constructor
  · exact one_div_pos.mpr (by linarith)
  · rw [div_le_one (by linarith)]
    linarith

/-- Witness for C9 at a concrete matching and bias strength 1. -/
theorem sensitivity_analysis_unit_interval_witness :
    (1 : ℚ) ≤ 1 ∧ ScoresInUnitInterval (sensitivity_analysis [(0, 1)] 1) :=
  ⟨le_refl 1, sensitivity_analysis_unit_interval [(0, 1)] 1 (le_refl 1)⟩

/-- C6: for any subject table and invertible covariance matrix, the matrix
returned by `calculate_mahalanobis_matrix` is symmetric and has zero
diagonal. -/
theorem calculate_mahalanobis_matrix_symm_zero_diag {n k : Nat}
    (data : Fin n → Fin k → ℝ) (cov : Matrix (Fin k) (Fin k) ℝ)
    (hcov : IsUnit cov.det) (i j : Fin n) :
    calculate_mahalanobis_matrix data cov i j
        = calculate_mahalanobis_matrix data cov j i ∧
      calculate_mahalanobis_matrix data cov i i = 0 := by
  constructor
  · simp only [calculate_mahalanobis_matrix, Matrix.of_apply, mahalanobisDistance]
    congr 1
    apply Finset.sum_congr rfl
    intro a _
    apply Finset.sum_congr rfl
    intro b _
    ring
  · simp [calculate_mahalanobis_matrix, Matrix.of_apply, mahalanobisDistance,
      sub_self]

/-- Witness for C6 with the identity covariance matrix on one covariate. -/
theorem calculate_mahalanobis_matrix_symm_zero_diag_witness :
    IsUnit (Matrix.det covW) ∧ calculate_mahalanobis_matrix dataW covW 0 0 = 0 := by
  have hdet : IsUnit (Matrix.det covW) := by simp [covW]
  exact ⟨hdet, (calculate_mahalanobis_matrix_symm_zero_diag dataW covW hdet 0 0).2⟩

theorem mem_matchPairs {rs : List (Nat × List Nat)} {p : Nat × Nat} :
    p ∈ matchPairs rs ↔ ∃ tc ∈ rs, tc.1 = p.1 ∧ p.2 ∈ tc.2 := by
  induction rs with
  | nil => simp [matchPairs]
  | cons tc rest ih =>
    simp only [matchPairs, List.mem_append, List.mem_map, ih, List.mem_cons]
    constructor
    · rintro (⟨c, hc, rfl⟩ | ⟨tc', h1, h2, h3⟩)
      · exact ⟨tc, Or.inl rfl, rfl, hc⟩
      · exact ⟨tc', Or.inr h1, h2, h3⟩
    · rintro ⟨tc', (rfl | h1), h2, h3⟩
      · left
        exact ⟨p.2, h3, by rw [h2]⟩
      · right
        exact ⟨tc', h1, h2, h3⟩

theorem matchPairs_nodup {rs : List (Nat × List Nat)}
    (hk : (rs.map Prod.fst).Nodup) (hcs : ControlsNodup rs) :
    (matchPairs rs).Nodup := by
  induction rs with
  | nil => simp [matchPairs]
  | cons tc rest ih =>
    rw [List.map_cons, List.nodup_cons] at hk
    rw [matchPairs, List.nodup_append]
    refine ⟨?_, ?_, ?_⟩
    · exact (hcs tc (List.mem_cons_self tc rest)).map
        (fun c1 c2 h => congrArg Prod.snd h)
    · exact ih hk.2 (fun tc' h => hcs tc' (List.mem_cons_of_mem tc h))
    · intro x hx hx'
      obtain ⟨c, _, rfl⟩ := List.mem_map.mp hx
      obtain ⟨tc', htc', hfst, _⟩ := mem_matchPairs.mp hx'
      exact hk.1 (hfst ▸ List.mem_map_of_mem Prod.fst htc')

theorem map_pair_filter (t : Nat) (S : List (Nat × Nat)) : ∀ cs : List Nat,
    (cs.filter (fun c => decide ((t, c) ∈ S))).map (fun c => (t, c))
      = (cs.map (fun c => (t, c))).filter (fun p => decide (p ∈ S))
  | [] => rfl
  | c :: cs => by
    simp only [List.map_cons, List.filter_cons]
    by_cases h : (t, c) ∈ S
    · simp [h, map_pair_filter t S cs]
    · simp [h, map_pair_filter t S cs]

theorem extractMatches_eq_filter (S : List (Nat × Nat)) :
    ∀ rs : List (Nat × List Nat),
      extractMatches S rs = (matchPairs rs).filter (fun p => decide (p ∈ S))
  | [] => rfl
  | tc :: rest => by
    rw [extractMatches, matchPairs, List.filter_append,
      extractMatches_eq_filter S rest, map_pair_filter]

theorem ite_decide_eq {α : Type} (p : Prop) [Decidable p] (a b : α) :
    (if decide p = true then a else b) = if p then a else b := by
  by_cases h : p <;> simp [h]

theorem sum_map_filter_eq (p : Nat × Nat → Bool) (f : Nat × Nat → ℚ) :
    ∀ l : List (Nat × Nat),
      ((l.filter p).map f).sum = (l.map fun x => if p x = true then f x else 0).sum
  | [] => rfl
  | a :: l => by
    simp only [List.filter_cons, List.map_cons, List.sum_cons]
    by_cases h : p a = true
    · simp [h, sum_map_filter_eq p f l]
    · simp [h, sum_map_filter_eq p f l]

theorem totalDist_extractMatches (D : Nat → Nat → ℚ) (rs : List (Nat × List Nat))
    (S : List (Nat × Nat)) :
    totalDist D (extractMatches S rs) = objectiveVal D rs S := by
  rw [totalDist, extractMatches_eq_filter, objectiveVal, sum_map_filter_eq]
  apply congrArg
  apply List.map_congr_left
  intro p _
  exact ite_decide_eq (p ∈ S) (D p.1 p.2) 0

theorem sum_ite_mem_eq (f : Nat × Nat → ℚ) (l m : List (Nat × Nat))
    (hl : l.Nodup) (hm : m.Nodup) (hsub : ∀ x ∈ m, x ∈ l) :
    (l.map fun x => if x ∈ m then f x else 0).sum = (m.map f).sum := by
  rw [← List.sum_toFinset _ hl, ← List.sum_toFinset _ hm]
  have h2 : (∑ x ∈ l.toFinset, if x ∈ m then f x else 0)
      = ∑ x ∈ l.toFinset, if x ∈ m.toFinset then f x else 0 := by
    refine Finset.sum_congr rfl fun x _ => ?_
    simp [List.mem_toFinset]
  rw [h2, Finset.sum_ite_mem]
  apply Finset.sum_congr _ (fun x _ => rfl)
  ext x
  simp only [Finset.mem_inter, List.mem_toFinset]
  exact ⟨fun h => h.2, fun h => ⟨hsub x h, h⟩⟩

theorem length_le_one_of_nodup_unique {α : Type} {l : List α} (hnd : l.Nodup)
    (h : ∀ a ∈ l, ∀ b ∈ l, a = b) : l.length ≤ 1 := by
  match l, hnd, h with
  | [], _, _ => simp
  | [a], _, _ => simp
  | a :: b :: t, hnd, h =>
    exfalso
    have hab : a = b := h a (by simp) b (by simp)
    rw [List.nodup_cons] at hnd
    exact hnd.1 (by simp [hab])

theorem eq_of_mem_of_length_le_one {α : Type} {l : List α} (h : l.length ≤ 1)
    {a b : α} (ha : a ∈ l) (hb : b ∈ l) : a = b := by
  match l, ha, hb with
  | [x], ha, hb =>
    rw [List.mem_singleton] at ha hb
    rw [ha, hb]
  | x :: y :: t, _, _ => simp at h

theorem feasibleB_of_feasibleAssignment {rs : List (Nat × List Nat)}
    {m : List (Nat × Nat)} (hk : (rs.map Prod.fst).Nodup) (hcs : ControlsNodup rs)
    (hfa : FeasibleAssignment rs m) :
    feasibleB rs ((matchPairs rs).filter (fun p => decide (p ∈ m))) = true := by
  obtain ⟨hperm, hsnd, hmem⟩ := hfa
  have hmemS : ∀ {p : Nat × Nat}, p ∈ matchPairs rs →
      ((p ∈ (matchPairs rs).filter (fun q => decide (q ∈ m))) ↔ p ∈ m) := by
    intro p hp
    rw [List.mem_filter]
    simp [hp]
  have hmfstnd : (m.map Prod.fst).Nodup := hperm.nodup_iff.mpr hk
  rw [feasibleB, Bool.and_eq_true, List.all_eq_true, List.all_eq_true]
  constructor
  · intro tc htc
    rw [exactlyOneConstraint, beq_iff_eq]
    have hcong : tc.2.countP
          (fun c => decide ((tc.1, c) ∈ (matchPairs rs).filter (fun q => decide (q ∈ m))))
        = tc.2.countP (fun c => decide ((tc.1, c) ∈ m)) := by
      apply List.countP_congr
      intro c hc
      simp only [decide_eq_true_eq]
      exact hmemS (mem_matchPairs.mpr ⟨tc, htc, rfl, hc⟩)
    rw [hcong]
    have htk : tc.1 ∈ rs.map Prod.fst := List.mem_map_of_mem Prod.fst htc
    have hcount : (m.map Prod.fst).count tc.1 = 1 := by
      rw [hperm.count_eq]
      exact List.count_eq_one_of_mem hk htk
    have hpos : tc.1 ∈ m.map Prod.fst := List.count_pos_iff.mp (by omega)
    obtain ⟨p0, hp0m, hp0fst⟩ := List.mem_map.mp hpos
    obtain ⟨tc', htc', htc'fst, hp02⟩ := hmem p0 hp0m
    have htceq : tc' = tc :=
      List.inj_on_of_nodup_map hk htc' htc (by rw [htc'fst, hp0fst])
    rw [htceq] at hp02
    have hcong2 : tc.2.countP (fun c => decide ((tc.1, c) ∈ m))
        = tc.2.countP (fun c => c == p0.2) := by
      apply List.countP_congr
      intro c _
      simp only [decide_eq_true_eq, beq_iff_eq]
      constructor
      · intro hcm
        have hpair : (tc.1, c) = p0 :=
          List.inj_on_of_nodup_map hmfstnd hcm hp0m (by rw [hp0fst])
        exact congrArg Prod.snd hpair
      · intro hceq
        have hpair : (tc.1, c) = p0 := by
          rw [hceq, ← hp0fst]
        rw [hpair]
        exact hp0m
    rw [hcong2]
    exact List.count_eq_one_of_mem (hcs tc htc) hp02
  · intro c hc
    rw [atMostOneConstraint, decide_eq_true_eq]
    have hcong : rs.countP
          (fun tc => decide (c ∈ tc.2 ∧ (tc.1, c) ∈ (matchPairs rs).filter (fun q => decide (q ∈ m))))
        = rs.countP (fun tc => decide (c ∈ tc.2 ∧ (tc.1, c) ∈ m)) := by
      apply List.countP_congr
      intro tc htc
      simp only [decide_eq_true_eq]
      constructor
      · rintro ⟨ht1, ht2⟩
        exact ⟨ht1, (hmemS (mem_matchPairs.mpr ⟨tc, htc, rfl, ht1⟩)).mp ht2⟩
      · rintro ⟨ht1, ht2⟩
        exact ⟨ht1, (hmemS (mem_matchPairs.mpr ⟨tc, htc, rfl, ht1⟩)).mpr ht2⟩
    rw [hcong, List.countP_eq_length_filter]
    apply length_le_one_of_nodup_unique ((hk.of_map Prod.fst).filter _)
    intro a ha b hb
    rw [List.mem_filter] at ha hb
    obtain ⟨ham, hap⟩ := ha
    obtain ⟨hbm, hbp⟩ := hb
    simp only [decide_eq_true_eq] at hap hbp
    have hfst : a.1 = b.1 := by
      have hab : (a.1, c) = (b.1, c) :=
        List.inj_on_of_nodup_map hsnd hap.2 hbp.2 rfl
      rw [Prod.mk.injEq] at hab
      exact hab.1
    exact List.inj_on_of_nodup_map hk ham hbm hfst

theorem objectiveVal_filterMem {rs : List (Nat × List Nat)} {m : List (Nat × Nat)}
    (D : Nat → Nat → ℚ) (hk : (rs.map Prod.fst).Nodup) (hcs : ControlsNodup rs)
    (hfa : FeasibleAssignment rs m) :
    objectiveVal D rs ((matchPairs rs).filter (fun p => decide (p ∈ m)))
      = totalDist D m := by
  obtain ⟨hperm, hsnd, hmem⟩ := hfa
  rw [objectiveVal]
  have hcong : (matchPairs rs).map
        (fun p => if p ∈ (matchPairs rs).filter (fun q => decide (q ∈ m))
          then D p.1 p.2 else 0)
      = (matchPairs rs).map (fun p => if p ∈ m then D p.1 p.2 else 0) := by
    apply List.map_congr_left
    intro p hp
    have hiff : (p ∈ (matchPairs rs).filter (fun q => decide (q ∈ m))) ↔ p ∈ m := by
      rw [List.mem_filter]
      simp [hp]
    exact if_congr hiff rfl rfl
  rw [hcong]
  have hmnd : m.Nodup := (hperm.nodup_iff.mpr hk).of_map Prod.fst
  have hsub : ∀ x ∈ m, x ∈ matchPairs rs := by
    intro x hx
    obtain ⟨tc, htc, ht1, ht2⟩ := hmem x hx
    exact mem_matchPairs.mpr ⟨tc, htc, ht1, ht2⟩
  exact sum_ite_mem_eq _ _ _ (matchPairs_nodup hk hcs) hmnd hsub

/-- C1: for every distance matrix and risk-set family (with the
duplicate-freeness a mapping built from a data frame index guarantees) that
admits a feasible one-to-one assignment, the matching returned by
`optimal_balanced_matching` has total dissimilarity at most that of every
feasible assignment respecting the same risk sets. -/
theorem optimal_balanced_matching_minimizes (D : Nat → Nat → ℚ)
    (rs : List (Nat × List Nat)) (hk : (rs.map Prod.fst).Nodup)
    (hcs : ControlsNodup rs) (m : List (Nat × Nat))
    (hfa : FeasibleAssignment rs m) :
    totalDist D (optimal_balanced_matching D rs) ≤ totalDist D m := by
  have hfeas : feasibleB rs ((matchPairs rs).filter (fun p => decide (p ∈ m))) = true :=
    feasibleB_of_feasibleAssignment hk hcs hfa
  have hcand : (matchPairs rs).filter (fun p => decide (p ∈ m))
      ∈ ((matchPairs rs).sublists).filter (feasibleB rs) := by
    rw [List.mem_filter]
    exact ⟨List.mem_sublists.mpr (List.filter_sublist _), hfeas⟩
  cases hsolve : solveBIP D rs with
  | none =>
    exfalso
    rw [solveBIP, List.argmin_eq_none] at hsolve
    rw [hsolve] at hcand
    exact List.not_mem_nil _ hcand
  | some S =>
    have hobm : optimal_balanced_matching D rs = extractMatches S rs := by
      rw [optimal_balanced_matching, hsolve]
    have hS : (((matchPairs rs).sublists).filter (feasibleB rs)).argmin
        (objectiveVal D rs) = some S := hsolve
    have hle : objectiveVal D rs S
        ≤ objectiveVal D rs ((matchPairs rs).filter (fun p => decide (p ∈ m))) :=
      List.le_of_mem_argmin hcand (Option.mem_def.mpr hS)
    calc totalDist D (optimal_balanced_matching D rs)
        = objectiveVal D rs S := by rw [hobm]; exact totalDist_extractMatches D rs S
      _ ≤ objectiveVal D rs ((matchPairs rs).filter (fun p => decide (p ∈ m))) := hle
      _ = totalDist D m := objectiveVal_filterMem D hk hcs hfa

/-- Witness for C1 at a concrete instance with two treated subjects. -/
theorem optimal_balanced_matching_minimizes_witness :
    ((rsW1.map Prod.fst).Nodup ∧ ControlsNodup rsW1 ∧ FeasibleAssignment rsW1 mW1) ∧
      totalDist dW (optimal_balanced_matching dW rsW1) ≤ totalDist dW mW1 :=
  ⟨⟨by decide, by decide, by decide⟩,
    optimal_balanced_matching_minimizes dW rsW1 (by decide) (by decide) mW1 (by decide)⟩

theorem extractMatches_map_fst {S : List (Nat × Nat)} :
    ∀ {rs : List (Nat × List Nat)},
      (∀ tc ∈ rs, (tc.2.filter (fun c => decide ((tc.1, c) ∈ S))).length = 1) →
      (extractMatches S rs).map Prod.fst = rs.map Prod.fst := by
  intro rs
  induction rs with
  | nil => intro _; rfl
  | cons tc rest ih =>
    intro h
    obtain ⟨c0, hc0⟩ := List.length_eq_one.mp (h tc (List.mem_cons_self tc rest))
    have hrest := ih (fun tc' h' => h tc' (List.mem_cons_of_mem tc h'))
    rw [extractMatches, List.map_append, hc0, List.map_cons, hrest]
    rfl

/-- C4 amended: whenever the solver produces an assignment (the constructed
program is feasible), the matching extracted by `optimal_balanced_matching`
pairs every treated key exactly once and in risk-set order, repeats no
control, and pairs each treated subject only with a control of its own risk
set.  The unconditional claim is false: on an infeasible program the code
produces the empty mapping and reports nothing (see the counterexample
below). -/
theorem optimal_balanced_matching_invariants (D : Nat → Nat → ℚ)
    (rs : List (Nat × List Nat)) (hk : (rs.map Prod.fst).Nodup)
    (hcs : ControlsNodup rs) (S : List (Nat × Nat))
    (hsolve : solveBIP D rs = some S) :
    (optimal_balanced_matching D rs).map Prod.fst = rs.map Prod.fst ∧
      ((optimal_balanced_matching D rs).map Prod.snd).Nodup ∧
      MatchingRespectsRiskSets rs (optimal_balanced_matching D rs) := by
  have hobm : optimal_balanced_matching D rs = extractMatches S rs := by
    rw [optimal_balanced_matching, hsolve]
  have hS : (((matchPairs rs).sublists).filter (feasibleB rs)).argmin
      (objectiveVal D rs) = some S := hsolve
  have hmemcand : S ∈ ((matchPairs rs).sublists).filter (feasibleB rs) :=
    List.argmin_mem (Option.mem_def.mpr hS)
  rw [List.mem_filter] at hmemcand
  obtain ⟨hsubl, hfeas⟩ := hmemcand
  rw [feasibleB, Bool.and_eq_true, List.all_eq_true, List.all_eq_true] at hfeas
  obtain ⟨hone, hctrl⟩ := hfeas
  have hpairsnd : (matchPairs rs).Nodup := matchPairs_nodup hk hcs
  have hfilter : extractMatches S rs = (matchPairs rs).filter (fun p => decide (p ∈ S)) :=
    extractMatches_eq_filter S rs
  refine ⟨?_, ?_, ?_⟩
  · rw [hobm]
    apply extractMatches_map_fst
    intro tc htc
    have h1 := hone tc htc
    rw [exactlyOneConstraint, beq_iff_eq, List.countP_eq_length_filter] at h1
    exact h1
  · rw [hobm, hfilter]
    apply List.Nodup.map_on
    · intro x hx y hy hxy
      rw [List.mem_filter, decide_eq_true_eq] at hx hy
      obtain ⟨hxp, hxS⟩ := hx
      obtain ⟨hyp, hyS⟩ := hy
      obtain ⟨tcx, htcx, hfx, hsx⟩ := mem_matchPairs.mp hxp
      obtain ⟨tcy, htcy, hfy, hsy⟩ := mem_matchPairs.mp hyp
      have hcmem : x.2 ∈ allControls rs := by
        rw [allControls, List.mem_dedup]
        exact List.mem_map_of_mem Prod.snd hxp
      have hc2 := hctrl _ hcmem
      rw [atMostOneConstraint, decide_eq_true_eq, List.countP_eq_length_filter] at hc2
      have hxmem : tcx ∈ rs.filter (fun tc => decide (x.2 ∈ tc.2 ∧ (tc.1, x.2) ∈ S)) := by
        rw [List.mem_filter, decide_eq_true_eq]
        refine ⟨htcx, hsx, ?_⟩
        rw [hfx]
        exact hxS
      have hymem : tcy ∈ rs.filter (fun tc => decide (x.2 ∈ tc.2 ∧ (tc.1, x.2) ∈ S)) := by
        rw [List.mem_filter, decide_eq_true_eq]
        refine ⟨htcy, ?_, ?_⟩
        · rw [hxy]
          exact hsy
        · rw [hfy, hxy]
          exact hyS
      have htceq : tcx = tcy := eq_of_mem_of_length_le_one hc2 hxmem hymem
      have hfsteq : x.1 = y.1 := by
        rw [← hfx, ← hfy, htceq]
      exact Prod.ext hfsteq hxy
    · exact hpairsnd.filter _
  · intro p hp
    rw [hobm, hfilter] at hp
    have hp' : p ∈ matchPairs rs := (List.mem_filter.mp hp).1
    obtain ⟨tc, htc, hf, hs⟩ := mem_matchPairs.mp hp'
    refine ⟨tc.2, ?_, hs⟩
    rw [← hf]
    exact htc

/-- C4 counterexample: at `rsC4` the produced matching is the empty mapping,
although treated id 0 carries the non-empty risk set `[7]`: it does not
appear as a key, and the code reports nothing as unmatched (the return value
is a bare matching with no report channel), so the claim as stated — every
treated id with a non-empty risk set appears exactly once as a key unless
reported unmatched — is false of the code. -/
theorem optimal_balanced_matching_invariants_counterexample :
    optimal_balanced_matching dW rsC4 = [] ∧
      (0, [7]) ∈ rsC4 ∧ ([7] : List Nat) ≠ [] ∧
      0 ∉ (optimal_balanced_matching dW rsC4).map Prod.fst := by
  decide

/-- Witness for the amended C4 at a concrete instance. -/
theorem optimal_balanced_matching_invariants_witness :
    ((rsW4.map Prod.fst).Nodup ∧ ControlsNodup rsW4 ∧
        solveBIP dW rsW4 = some [(0, 1)]) ∧
      ((optimal_balanced_matching dW rsW4).map Prod.fst = rsW4.map Prod.fst ∧
        ((optimal_balanced_matching dW rsW4).map Prod.snd).Nodup ∧
        MatchingRespectsRiskSets rsW4 (optimal_balanced_matching dW rsW4)) :=
  ⟨⟨by decide, by decide, by decide⟩,
    optimal_balanced_matching_invariants dW rsW4 (by decide) (by decide)
      [(0, 1)] (by decide)⟩

/-- C2: evaluation of the source at a table where treated subject 0 has an
empty risk set and treated subject 1 has the eligible control 5.  The source
adds the exactly-one constraint for subject 0 as well, which no 0/1
assignment can satisfy, so the whole program is infeasible: the solver
reports the infeasible status and the extraction yields the empty mapping —
subject 1 is left unmatched and subject 0 is not reported, instead of the
claimed behaviour (exclude subject 0 from the constraint, match subject 1,
report subject 0 as unmatched). -/
theorem optimal_balanced_matching_empty_risk_set_infeasible :
    solveBIP dW rsEmptyRS = none ∧ optimal_balanced_matching dW rsEmptyRS = [] := by
  decide

/-- C7: evaluation of the source at a program the solver reports infeasible
(two treated subjects whose risk sets are the same singleton).  The solver
status is discarded: `optimal_balanced_matching` returns a bare matching value
of the ordinary success type carrying no failure indication. -/
theorem optimal_balanced_matching_ignores_solver_status :
    solveBIP dW rsShared = none ∧ optimal_balanced_matching dW rsShared = [] := by
  decide

end BalancedRiskSetMatching
